import Mathlib

/-!
A verification development for the pants v2 execution engine's Python layer.

The definitions below are shallow embeddings of the Python code in
`src/python/pants/util/fileutil.py`, `src/python/pants/engine/scheduler.py`
and `src/python/pants/engine/subsystem/native.py`.  Strings are modelled as
`List Char` (wrapped into `String` where convenient), Python dicts as
association lists, fallible code as `Except`/`Option`, and Python
exceptions as explicit result values.  Functions are kept executable so
that concrete runs of the embedded code can be checked by `decide`.
-/

namespace Pants

/-! ## Python `str.replace`

`replaceFuel pat rep fuel s` performs Python's `s.replace(pat, rep)`:
non-overlapping occurrences of `pat` are replaced left to right.  The
`fuel` argument only serves to make the recursion structural; each step
consumes at least one character, so `fuel = s.length` computes the full
replacement (Python's special case for an empty pattern is irrelevant
here: the code under study only replaces non-empty patterns). -/
def replaceFuel (pat rep : List Char) : Nat → List Char → List Char
  | _, [] => []
  | 0, s => s
  | Nat.succ f, c :: rest =>
    if pat.isPrefixOf (c :: rest) ∧ pat ≠ [] then
      rep ++ replaceFuel pat rep f (rest.drop (pat.length - 1))
    else
      c :: replaceFuel pat rep f rest

/-- Python `s.replace(pat, rep)` for a non-empty pattern `pat`. -/
def replaceL (pat rep s : List Char) : List Char :=
  replaceFuel pat rep s.length s

example : replaceL ['a'] ['b'] ['a', 'c', 'a'] = ['b', 'c', 'b'] := by decide

example : replaceL ['a', 'a'] ['b'] ['a', 'a', 'a'] = ['b', 'a'] := by decide

/-! ## `glob_to_regex` (src/python/pants/util/fileutil.py)

The Python source:

```
  replacement_map = (('?', r'.'),
                     ('.', r'[.]'),
                     ('**/', r'(?:.*/)?'),
                     ('*', r'[^/]*'))
  for from_pattern, to_pattern in replacement_map:
    glob = glob.replace(from_pattern, to_pattern)
  if glob.endswith('/'):
    glob = r'{}(/.*|$)'.format(glob[:-1])
  if glob.startswith('/'):
    glob = r'^{}'.format(glob[1:])
  return glob
```
-/
def globToRegexL (glob : List Char) : List Char :=
  let g1 := replaceL ['?'] ['.'] glob
  let g2 := replaceL ['.'] ['[', '.', ']'] g1
  let g3 := replaceL ['*', '*', '/'] ['(', '?', ':', '.', '*', '/', ')', '?'] g2
  let g4 := replaceL ['*'] ['[', '^', '/', ']', '*'] g3
  let g5 :=
    if g4.getLast? = some '/' then
      g4.dropLast ++ ['(', '/', '.', '*', '|', '$', ')']
    else g4
  match g5 with
  | [] => []
  | c :: rest => if c = '/' then '^' :: rest else c :: rest

/-- `glob_to_regex` from `pants/util/fileutil.py`, on `String`. -/
def glob_to_regex (glob : String) : String :=
  ⟨globToRegexL glob.data⟩

example : glob_to_regex "?" = "[.]" := by decide
example : glob_to_regex "." = "[.]" := by decide
example : glob_to_regex "a?b" = "a[.]b" := by decide
example : glob_to_regex "**/a" = "(?:.[^/]*/)?a" := by decide
example : glob_to_regex "a/b/*/f.py" = "a/b/[^/]*/f[.]py" := by decide
example : glob_to_regex "/dist/" = "^dist(/.*|$)" := by decide
example : glob_to_regex "dist/" = "dist(/.*|$)" := by decide
example : glob_to_regex "/.*" = "^[.][^/]*" := by decide
example : glob_to_regex "build-support/*.venv/" = "build-support/[^/]*[.]venv(/.*|$)" := by
  decide

/-- The glob-to-regex translation exactly as the spec words it: the four
substitutions `?` → `.`, `.` → `\.`, `**/` → `(?:.*/)?`, `*` → `[^/]*`
applied in order, with the same trailing-`/` and leading-`/` rules as the
code.  Written from the spec's words, to be compared against
`glob_to_regex` above. -/
def globToRegexSpecced (glob : String) : String :=
  let g1 := replaceL ['?'] ['.'] glob.data
  let g2 := replaceL ['.'] ['\\', '.'] g1
  let g3 := replaceL ['*', '*', '/'] ['(', '?', ':', '.', '*', '/', ')', '?'] g2
  let g4 := replaceL ['*'] ['[', '^', '/', ']', '*'] g3
  let g5 :=
    if g4.getLast? = some '/' then
      g4.dropLast ++ ['(', '/', '.', '*', '|', '$', ')']
    else g4
  match g5 with
  | [] => ⟨[]⟩
  | c :: rest => if c = '/' then ⟨'^' :: rest⟩ else ⟨c :: rest⟩

example : globToRegexSpecced "." = "\\." := by decide

/-! ## Python `posixpath.dirname`

`os.path.dirname` on POSIX: split at the last `/`; the head keeps the
slash, then trailing slashes are stripped unless the head consists only
of slashes. -/
def dirnameL (p : List Char) : List Char :=
  let i : Nat :=
    match (p.reverse.findIdx? (· = '/')) with
    | none => 0
    | some j => p.length - j
  let head := p.take i
  if head ≠ [] ∧ ¬ (head.all (· = '/')) then
    (head.reverse.dropWhile (· = '/')).reverse
  else head

/-- Python `os.path.dirname` (POSIX flavour), on `String`. -/
def dirname (p : String) : String :=
  ⟨dirnameL p.data⟩

example : dirname "a/b/c" = "a/b" := by decide
example : dirname "a" = "" := by decide
example : dirname "" = "" := by decide
example : dirname "/" = "/" := by decide
example : dirname "/a" = "/" := by decide
example : dirname "a/" = "a" := by decide
example : dirname "a//b" = "a" := by decide
example : dirname "a/b/" = "a/b" := by decide

/-! ## A regex engine for the emitted patterns

`glob_to_regex` produces a Python regex string which callers feed to
`re.match` (see `GlobToRegexTest` in `tests/python/pants_test/util/
test_fileutil.py`).  To reason about what the produced patterns match we
model the fragment of Python's `re` that those patterns use: literal
characters, `.`, character classes of literal characters (with optional
`^` negation), `$`, `(?:...)` groups, alternation, `*` and `?`
quantifiers, and a leading `^` anchor.  `re.match` semantics: the match
is anchored at the start of the string and need not consume all of it.

`RE` is the abstract syntax, `matchPre` the matcher (by Brzozowski
derivatives; `$` is satisfiable exactly when the remaining input is
empty), and `parseRegexStr` the translation from the concrete regex
string, failing on syntax outside the modelled fragment. -/
inductive RE : Type where
  | emp : RE
  | eps : RE
  | chr : Char → RE
  | dot : RE
  | cls : Bool → List Char → RE
  | endAnchor : RE
  | cat : RE → RE → RE
  | alt : RE → RE → RE
  | star : RE → RE
  | opt : RE → RE
deriving Repr, DecidableEq

/-- Whether `e` accepts the empty string at the current position;
`atEnd` records whether that position is the end of the whole input
(which is what `$` asserts). -/
def nullAt (atEnd : Bool) : RE → Bool
  | .emp => false
  | .eps => true
  | .chr _ => false
  | .dot => false
  | .cls _ _ => false
  | .endAnchor => atEnd
  | .cat e1 e2 => nullAt atEnd e1 && nullAt atEnd e2
  | .alt e1 e2 => nullAt atEnd e1 || nullAt atEnd e2
  | .star _ => true
  | .opt _ => true

/-- Brzozowski derivative of `e` by the character `c`.  Taking a
derivative consumes a character, so the position at which `e1` of a
concatenation may be skipped is never the end of input (`nullAt false`).
`.` matches any character except a newline, as in Python. -/
def deriv (c : Char) : RE → RE
  | .emp => .emp
  | .eps => .emp
  | .chr a => if c = a then .eps else .emp
  | .dot => if c = '\n' then .emp else .eps
  | .cls neg cs => if cs.contains c != neg then .eps else .emp
  | .endAnchor => .emp
  | .cat e1 e2 =>
    if nullAt false e1 then .alt (.cat (deriv c e1) e2) (deriv c e2)
    else .cat (deriv c e1) e2
  | .alt e1 e2 => .alt (deriv c e1) (deriv c e2)
  | .star e => .cat (deriv c e) (.star e)
  | .opt e => deriv c e

/-- `re.match` semantics: does `e` match some prefix of the input,
starting at the first character? -/
def matchPre (e : RE) : List Char → Bool
  | [] => nullAt true e
  | c :: rest => nullAt false e || matchPre (deriv c e) rest

/-- Contents of a character class, up to the closing `]`.  The modelled
fragment has no ranges: every member is a literal character. -/
def parseClsChars : List Char → Option (List Char × List Char)
  | [] => none
  | c :: rest =>
    if c = ']' then some ([], rest)
    else do
      let (cs, r) ← parseClsChars rest
      some (c :: cs, r)

/-- Apply a postfix quantifier (`*` or `?`) to a just-parsed atom. -/
def parseQuant (a : RE) (l : List Char) : RE × List Char :=
  match l with
  | [] => (a, l)
  | c :: rest =>
    if c = '*' then (.star a, rest)
    else if c = '?' then (.opt a, rest)
    else (a, l)

/-- Grammar level of the recursive-descent regex parse:
alternation, sequence, or single atom. -/
inductive PMode : Type where
  | alt : PMode
  | seq : PMode
  | atom : PMode
deriving Repr, DecidableEq

/-- Recursive-descent parse of the modelled regex fragment.  The `fuel`
argument makes the recursion structural; every recursive call consumes
one unit, and `3 * s.length + 3` units always suffice (see
`parseP_fuel_eq`).  `PMode.seq` stops at `|`, `)` or the end;
`PMode.atom` refuses stray metacharacters, so strings outside the
modelled fragment fail to parse instead of being misread. -/
def parseP : Nat → PMode → List Char → Option (RE × List Char)
  | 0, _, _ => none
  | Nat.succ f, PMode.alt, s => do
    let (e1, r1) ← parseP f PMode.seq s
    match r1 with
    | [] => some (e1, [])
    | c :: r2 =>
      if c = '|' then do
        let (e2, r3) ← parseP f PMode.alt r2
        some (RE.alt e1 e2, r3)
      else some (e1, c :: r2)
  | Nat.succ f, PMode.seq, s =>
    match s with
    | [] => some (RE.eps, [])
    | c :: rest =>
      if c = ')' ∨ c = '|' then some (RE.eps, c :: rest)
      else do
        let (a, r1) ← parseP f PMode.atom (c :: rest)
        let (a2, r2) := parseQuant a r1
        let (b, r3) ← parseP f PMode.seq r2
        some (RE.cat a2 b, r3)
  | Nat.succ f, PMode.atom, s =>
    match s with
    | [] => none
    | c :: rest =>
      if c = '(' then do
        let (e, r) ← parseP f PMode.alt
          (if rest.take 2 = ['?', ':'] then rest.drop 2 else rest)
        match r with
        | [] => none
        | c2 :: r2 => if c2 = ')' then some (e, r2) else none
      else if c = '[' then
        if rest.head? = some '^' then do
          let (cs, r) ← parseClsChars rest.tail
          some (RE.cls true cs, r)
        else do
          let (cs, r) ← parseClsChars rest
          some (RE.cls false cs, r)
      else if c = '.' then some (RE.dot, rest)
      else if c = '$' then some (RE.endAnchor, rest)
      else if c = '\\' then
        match rest with
        | [] => none
        | c2 :: r2 => some (RE.chr c2, r2)
      else if c = '*' ∨ c = '?' ∨ c = '+' ∨ c = '|' ∨ c = ')' ∨ c = '^' then
        none
      else some (RE.chr c, rest)

/-- Parse a full regex string.  A leading `^` is an assertion that the
match starts at position 0; under `re.match` semantics that always
holds, so it is stripped.  The whole string must be consumed. -/
def parseRegexL (d : List Char) : Option RE :=
  let body := if d.head? = some '^' then d.tail else d
  match parseP (3 * d.length + 3) PMode.alt body with
  | some (e, []) => some e
  | _ => none

/-- `re.match(pattern, input) is not None`, for patterns inside the
modelled fragment (`false` when `pattern` does not parse). -/
def reMatch (pattern input : String) : Bool :=
  match parseRegexL pattern.data with
  | some e => matchPre e input.data
  | none => false

example : reMatch "[.]" "." = true := by decide
example : reMatch "[.]" "x" = false := by decide
example : reMatch "a[.]b" "a.b" = true := by decide
example : reMatch "a[.]b" "axb" = false := by decide
example : reMatch "a.b" "axb" = true := by decide
example : reMatch "dist(/.*|$)" "dist" = true := by decide
example : reMatch "dist(/.*|$)" "dist/super_rad.pex" = true := by decide
example : reMatch "dist(/.*|$)" "dist.py" = false := by decide
example : reMatch "^dist(/.*|$)" "dist/nested/path.py" = true := by decide
example : reMatch "(?:.[^/]*/)?a" "a" = true := by decide
example : reMatch "(?:.[^/]*/)?a" "x/a" = true := by decide
example : reMatch "(?:.[^/]*/)?a" "x/y/a" = false := by decide
example : reMatch "a/b/[^/]*/f[.]py" "a/b/c/f.py" = true := by decide
example : reMatch "a/b/[^/]*/f[.]py" "a/b/c/d/f.py" = false := by decide

/-! ## The interning store (`ExternContext`,
src/python/pants/engine/subsystem/native.py)

Python dicts keyed by host equality are modelled as association lists
over a type with decidable equality; `_id_generator` is a `Nat`. -/

structure InternStore (α : Type) where
  idGenerator : Nat
  idToObj : List (Nat × α)
  objToId : List (α × Nat)
deriving Repr

/-- Lookup in the `_obj_to_id` dict. -/
def lookupObjId [DecidableEq α] (l : List (α × Nat)) (v : α) : Option Nat :=
  (l.find? (fun p => decide (p.1 = v))).map (·.2)

/-- Lookup in the `_id_to_obj` dict. -/
def lookupIdObj (l : List (Nat × α)) (i : Nat) : Option α :=
  (l.find? (fun p => decide (p.1 = i))).map (·.2)

/-- `ExternContext.put`: `new_id = self._id_generator`;
`_id = self._obj_to_id.setdefault(obj, new_id)`; if the object already
had an id return it, otherwise record `new_id` in `_id_to_obj` and
increment the generator. -/
def put [DecidableEq α] (s : InternStore α) (v : α) : Nat × InternStore α :=
  match lookupObjId s.objToId v with
  | some i => (i, s)
  | none =>
    (s.idGenerator,
     { idGenerator := s.idGenerator + 1,
       idToObj := (s.idGenerator, v) :: s.idToObj,
       objToId := (v, s.idGenerator) :: s.objToId })

/-- `ExternContext.get`: `self._id_to_obj[id_]` (a missing id is a
`KeyError`, modelled as `none`). -/
def get (s : InternStore α) (i : Nat) : Option α :=
  lookupIdObj s.idToObj i

/-- A host object handed across the FFI: an opaque object together with
its `TypeId`. -/
structure Value (α : Type) where
  obj : α
  typeId : Nat
deriving Repr, DecidableEq

/-- A canonical interned identifier carrying its `TypeId`. -/
structure Key where
  id : Nat
  typeId : Nat
deriving Repr, DecidableEq

/-- `ExternContext.value_to_key`: intern the Value's underlying object
and pair the resulting id with the Value's own `type_id`. -/
def value_to_key [DecidableEq α] (s : InternStore α) (val : Value α) :
    Key × InternStore α :=
  let (i, s') := put s val.obj
  (⟨i, val.typeId⟩, s')

/-- Well-formedness of the interning store, true of the freshly
initialized store and preserved by `put`: every assigned id is below the
generator, and `_obj_to_id` and `_id_to_obj` agree. -/
def StoreWF [DecidableEq α] (s : InternStore α) : Prop :=
  (∀ p ∈ s.objToId, p.2 < s.idGenerator) ∧
  (∀ p ∈ s.idToObj, p.1 < s.idGenerator) ∧
  (∀ v i, lookupObjId s.objToId v = some i → lookupIdObj s.idToObj i = some v)

/-! ## The process-wide `ExternContext` singleton

`Native.context` is `ffi.init_once(ExternContext, 'ExternContext
singleton')`: the first access constructs an `ExternContext`, every
later access in the same process returns that same object.
`ExternContext.__init__` starts from empty dicts and immediately interns
the `bytes` and `int` type objects (`self.bytes_id`, `self.anon_id`). -/

/-- Host objects that appear in the scenarios below: the two type
objects interned by `ExternContext.__init__`, plus strings. -/
inductive PyObj : Type where
  | bytesTy : PyObj
  | intTy : PyObj
  | strv : String → PyObj
deriving Repr, DecidableEq

/-- `ExternContext.__init__`: empty store, then
`self.bytes_id = TypeId(self.to_id(bytes))` and
`self.anon_id = TypeId(self.to_id(int))`. -/
def externContextInit : InternStore PyObj :=
  let s0 : InternStore PyObj := ⟨0, [], []⟩
  let s1 := (put s0 PyObj.bytesTy).2
  (put s1 PyObj.intTy).2

/-- Process-level state: the `ffi.init_once` slot for the
`'ExternContext singleton'` tag. -/
structure PyProcess where
  externContextSingleton : Option (InternStore PyObj)
deriving Repr

def processInit : PyProcess := ⟨none⟩

/-- `Native.context`: `ffi.init_once(ExternContext, 'ExternContext
singleton')` — return the existing singleton, or construct and store
it on first use. -/
def nativeContext (p : PyProcess) : InternStore PyObj × PyProcess :=
  match p.externContextSingleton with
  | some s => (s, p)
  | none => (externContextInit, ⟨some externContextInit⟩)

/-- Creating a scheduler obtains its `ExternContext` through
`Native.context` (`new_scheduler` interns constraints and field names
via `self.context`). -/
def newSchedulerContext (p : PyProcess) : InternStore PyObj × PyProcess :=
  nativeContext p

/-- An interning operation performed through a scheduler's context
(e.g. `to_id`/`to_key` during rule registration): mutates the
process-wide singleton. -/
def schedulerIntern (p : PyProcess) (v : PyObj) : Nat × PyProcess :=
  let (s, _) := nativeContext p
  let (i, s') := put s v
  (i, ⟨some s'⟩)

/-! ## `extern_invoke_runnable`
(src/python/pants/engine/subsystem/native.py)

Python exceptions are modelled explicitly: an exception object carries
`isException = true` when its class derives from `Exception` (the only
exceptions `except Exception` catches) and `false` for
`BaseException`-only exceptions such as `KeyboardInterrupt` or
`SystemExit`. -/

structure PyExc (α : Type) where
  val : α
  isException : Bool
deriving Repr, DecidableEq

/-- Outcome of running a piece of Python code: a value, or a raised
exception propagating to the caller. -/
inductive PyResult (α : Type) (β : Type) where
  | ok : β → PyResult α β
  | raised : PyExc α → PyResult α β
deriving Repr, DecidableEq

structure RunnableComplete (α : Type) where
  value : α
  is_throw : Bool
deriving Repr, DecidableEq

/-- `extern_invoke_runnable`: run the rule function under
`try: ... except Exception as e: val = e; is_throw = True` and return
`RunnableComplete(c.to_value(val), is_throw)`. -/
def extern_invoke_runnable (runnable : List α → PyResult α α)
    (args : List α) : PyResult α (RunnableComplete α) :=
  match runnable args with
  | .ok v => .ok ⟨v, false⟩
  | .raised e => if e.isException then .ok ⟨e.val, true⟩ else .raised e

/-! ## `extern_project` (src/python/pants/engine/subsystem/native.py) -/

/-- The host operations `extern_project` relies on: `getattr` (absent
field raises `AttributeError`), exact runtime type lookup (`type(x)`),
and calling a type's constructor (which may itself raise). -/
structure PyHost (α : Type) where
  getattr : α → String → Option α
  typeOf : α → Nat
  construct : Nat → α → PyResult α α
  attrError : α → String → PyExc α

/-- `extern_project`: `projected = getattr(obj, field_name)`;
`if type(projected) is not typ: projected = typ(projected)`;
`return c.to_value(projected)`. -/
def extern_project (H : PyHost α) (obj : α) (field : String)
    (typeId : Nat) : PyResult α α :=
  match H.getattr obj field with
  | none => .raised (H.attrError obj field)
  | some projected =>
    if H.typeOf projected ≠ typeId then H.construct typeId projected
    else .ok projected

/-! ## Root-node decoding (`WrappedNativeScheduler.root_entries`,
src/python/pants/engine/scheduler.py) -/

/-- Terminal node states.  `Return` and `Throw` are the classes
`scheduler.py` imports from `pants.engine.nodes` (file not under src).
`Noop` is modelled from the spec: §3 lists `Noop(reason)` as the third
terminal state and §6 assigns it `state_tag` 3. -/
inductive NodeState (α : Type) where
  | Return : α → NodeState α
  | Throw : α → NodeState α
  | Noop : α → NodeState α
deriving Repr, DecidableEq

/-- One entry of the `RawNodes` buffer returned by `execution_roots`:
only `state_tag` and `state_value` are read by `root_entries` (the
subject and product are taken from the request's roots instead). -/
structure RawNode (α : Type) where
  state_tag : Nat
  state_value : α
deriving Repr, DecidableEq

/-- The `if raw_root.state_tag is 0 ... elif ... else raise ValueError`
chain of `root_entries`. -/
def decodeRootState (tag : Nat) (v : α) : Except String (Option (NodeState α)) :=
  if tag = 0 then .ok none
  else if tag = 1 then .ok (some (.Return v))
  else if tag = 2 then .ok (some (.Throw v))
  else if tag = 3 then .ok (some (.Throw v))
  else .error "Unrecognized State type"

/-- The `for root, raw_root in zip(...)` loop body of `root_entries`:
decode each raw node's state and pair it with its requested root; a
`ValueError` on any entry propagates out of the whole loop. -/
def decodeRoots : List (ρ × RawNode α) →
    Except String (List (ρ × Option (NodeState α)))
  | [] => .ok []
  | p :: rest => do
    let st ← decodeRootState p.2.state_tag p.2.state_value
    let tail ← decodeRoots rest
    .ok ((p.1, st) :: tail)

/-- `WrappedNativeScheduler.root_entries`: zip the request's roots with
the unpacked raw nodes and decode each state. -/
def root_entries (reqRoots : List ρ) (raws : List (RawNode α)) :
    Except String (List (ρ × Option (NodeState α))) :=
  decodeRoots (reqRoots.zip raws)

example :
    root_entries [(0, 0)] [(⟨1, 42⟩ : RawNode Nat)] =
      .ok [((0, 0), some (.Return 42))] := rfl

/-! ## Concurrent `execute` (`LocalScheduler`,
src/python/pants/engine/scheduler.py)

`schedule` and `root_entries` each hold `_product_graph_lock` for their
whole body, so a two-thread race interleaves whole calls.  Python
compares `ExecutionRequest`s by identity (`is not`); the identity is
modelled as a token `reqId`.  The products returned by a successful
`root_entries` are represented by the request's roots (their decoded
states are irrelevant to the claim). -/

structure ExecutionRequest where
  reqId : Nat
  roots : List (Nat × Nat)
deriving Repr, DecidableEq

/-- The `LocalScheduler` state touched by the claim:
`self._execution_request`. -/
structure LSState where
  executionRequest : Option ExecutionRequest
deriving Repr, DecidableEq

/-- `LocalScheduler._execution_add_roots` (under `schedule`'s lock):
reset any previous native execution and install the new request. -/
def execution_add_roots (_st : LSState) (r : ExecutionRequest) : LSState :=
  ⟨some r⟩

/-- `LocalScheduler.schedule`: take the lock, install the request's
roots, run the native engine to completion. -/
def scheduleLS (st : LSState) (r : ExecutionRequest) : LSState :=
  execution_add_roots st r

def concurrencyErrorMsg : String :=
  "Multiple concurrent executions are not supported!"

/-- `LocalScheduler.root_entries`: under the lock, raise
`AssertionError('Multiple concurrent executions are not supported!...')`
unless the given request is the currently installed one. -/
def root_entriesLS (st : LSState) (r : ExecutionRequest) :
    Except String (List (Nat × Nat)) :=
  match st.executionRequest with
  | some cur => if cur.reqId = r.reqId then .ok r.roots else .error concurrencyErrorMsg
  | none => .error concurrencyErrorMsg

/-- `LocalScheduler.execute` as run by one thread: `schedule`, then
`root_entries` (each separately under the lock). -/
def executeLS (st : LSState) (r : ExecutionRequest) :
    LSState × Except String (List (Nat × Nat)) :=
  let st1 := scheduleLS st r
  (st1, root_entriesLS st1 r)

/-! ## `LocalScheduler.invalidate_files`
(src/python/pants/engine/scheduler.py) -/

/-- The set passed to the native `graph_invalidate`:
`filenames = set(direct_filenames)`;
`filenames.update(os.path.dirname(f) for f in direct_filenames)`. -/
def invalidationTargets (direct : List String) : Finset String :=
  direct.toFinset ∪ (direct.map dirname).toFinset

/-- Does a `Path`-subject `d` cover an invalidated path `p`: `d` equals
`p` or is a parent directory of it. -/
def coversB (d p : String) : Bool :=
  d == p || (d ++ "/").isPrefixOf p

/-- Modelled from the spec: the native product graph, reduced to the
set of its `Path`-like subjects (the Rust engine is not under src).
Transitive dirty propagation to ancestors is elided; the claim under
study only concerns the set of paths handed to the native call, the
returned count, and totality. -/
structure ProductGraphModel where
  pathSubjects : Finset String

/-- Modelled from the spec: `graph_invalidate(paths) → count` marks the
nodes whose subject equals, or is a parent directory of, one of the
given paths, and returns how many; it never fails. -/
def graph_invalidate (g : ProductGraphModel) (paths : Finset String) : Nat :=
  (g.pathSubjects.filter (fun d => ∃ p ∈ paths, coversB d p = true)).card

/-- `LocalScheduler.invalidate_files`: augment the direct filenames with
each one's `os.path.dirname` and invalidate that set. -/
def invalidate_files (g : ProductGraphModel) (direct : List String) : Nat :=
  graph_invalidate g (invalidationTargets direct)

/-! ## Lemmas about the interning store -/

theorem lookupObjId_cons [DecidableEq α] (v w : α) (i : Nat)
    (l : List (α × Nat)) :
    lookupObjId ((v, i) :: l) w = if v = w then some i else lookupObjId l w := by
  by_cases h : v = w
  · subst h
    simp [lookupObjId, List.find?]
  · simp [lookupObjId, List.find?, h]

theorem lookupIdObj_cons (i j : Nat) (v : α) (l : List (Nat × α)) :
    lookupIdObj ((i, v) :: l) j = if i = j then some v else lookupIdObj l j := by
  by_cases h : i = j
  · subst h
    simp [lookupIdObj, List.find?]
  · simp [lookupIdObj, List.find?, h]

theorem lookupObjId_mem [DecidableEq α] {l : List (α × Nat)} {v : α}
    {i : Nat} (h : lookupObjId l v = some i) : (v, i) ∈ l := by
  unfold lookupObjId at h
  cases hf : l.find? (fun p => decide (p.1 = v)) with
  | none => simp [hf] at h
  | some p =>
    have hm := List.mem_of_find?_eq_some hf
    have hp := List.find?_some hf
    simp only [decide_eq_true_eq] at hp
    simp only [hf, Option.map_some'] at h
    obtain ⟨a, b⟩ := p
    cases hp
    cases h
    exact hm

theorem lookupIdObj_mem {l : List (Nat × α)} {i : Nat} {v : α}
    (h : lookupIdObj l i = some v) : (i, v) ∈ l := by
  unfold lookupIdObj at h
  cases hf : l.find? (fun p => decide (p.1 = i)) with
  | none => simp [hf] at h
  | some p =>
    have hm := List.mem_of_find?_eq_some hf
    have hp := List.find?_some hf
    simp only [decide_eq_true_eq] at hp
    simp only [hf, Option.map_some'] at h
    obtain ⟨a, b⟩ := p
    cases hp
    cases h
    exact hm

/-- `put` preserves well-formedness of the store. -/
theorem StoreWF.put [DecidableEq α] {s : InternStore α} (hs : StoreWF s)
    (v : α) : StoreWF (put s v).2 := by
  obtain ⟨hb1, hb2, hcor⟩ := hs
  cases h : lookupObjId s.objToId v with
  | some i => simpa [Pants.put, h] using ⟨hb1, hb2, hcor⟩
  | none =>
    refine ⟨?_, ?_, ?_⟩
    · intro p hp
      simp only [Pants.put, h, List.mem_cons] at hp ⊢
      rcases hp with hp | hp
      · subst hp; omega
      · have := hb1 p hp; omega
    · intro p hp
      simp only [Pants.put, h, List.mem_cons] at hp ⊢
      rcases hp with hp | hp
      · subst hp; omega
      · have := hb2 p hp; omega
    · intro w i hw
      simp only [Pants.put, h] at hw ⊢
      rw [lookupObjId_cons] at hw
      rw [lookupIdObj_cons]
      by_cases hvw : v = w
      · simp only [hvw, if_pos rfl] at hw
        cases hw
        simp [hvw]
      · rw [if_neg hvw] at hw
        have hlt : i < s.idGenerator := hb1 _ (lookupObjId_mem hw)
        rw [if_neg (by omega)]
        exact hcor w i hw

/-- The freshly initialized store is well-formed. -/
theorem StoreWF.empty [DecidableEq α] : StoreWF (⟨0, [], []⟩ : InternStore α) := by
  refine ⟨by simp, by simp, ?_⟩
  intro v i h
  simp [lookupObjId] at h

/-- `put` on an object that already has an Id returns that Id. -/
theorem put_fst_found [DecidableEq α] {s : InternStore α} {v : α} {i : Nat}
    (h : lookupObjId s.objToId v = some i) : (put s v).1 = i := by
  simp [Pants.put, h]

/-- `put` on an object that already has an Id leaves the store
unchanged. -/
theorem put_snd_found [DecidableEq α] {s : InternStore α} {v : α} {i : Nat}
    (h : lookupObjId s.objToId v = some i) : (put s v).2 = s := by
  simp [Pants.put, h]

/-- `put` on a new object assigns the current generator value. -/
theorem put_fst_new [DecidableEq α] {s : InternStore α} {v : α}
    (h : lookupObjId s.objToId v = none) : (put s v).1 = s.idGenerator := by
  simp [Pants.put, h]

/-- `put` on a new object records the binding in both dicts and bumps
the generator. -/
theorem put_snd_new [DecidableEq α] {s : InternStore α} {v : α}
    (h : lookupObjId s.objToId v = none) :
    (put s v).2 =
      { idGenerator := s.idGenerator + 1,
        idToObj := (s.idGenerator, v) :: s.idToObj,
        objToId := (v, s.idGenerator) :: s.objToId } := by
  simp [Pants.put, h]

/-- C3: on a well-formed interning store, `put` returns equal Ids for
`v1` and `v2` exactly when the host considers them equal; consequently
`value_to_key` gives Values with equal underlying objects the same Key
id, and the returned Key carries the Value's own TypeId. -/
theorem C3_interning_equality {α : Type} [DecidableEq α] (s : InternStore α)
    (hs : StoreWF s) (v1 v2 : α) (val1 val2 : Value α) :
    ((put (put s v1).2 v2).1 = (put s v1).1 ↔ v1 = v2) ∧
    (value_to_key s val1).1.typeId = val1.typeId ∧
    (val1.obj = val2.obj →
      (value_to_key ((value_to_key s val1).2) val2).1.id =
        (value_to_key s val1).1.id) := by
  obtain ⟨hb1, hb2, hcor⟩ := hs
  have main : ∀ w1 w2 : α, (put (put s w1).2 w2).1 = (put s w1).1 ↔ w1 = w2 := by
    intro w1 w2
    constructor
    · intro h
      cases h1 : lookupObjId s.objToId w1 with
      | some i1 =>
        rw [put_snd_found h1, put_fst_found h1] at h
        cases h2 : lookupObjId s.objToId w2 with
        | some i2 =>
          rw [put_fst_found h2] at h
          have e1 := hcor w1 i1 h1
          have e2 := hcor w2 i2 h2
          rw [h] at e2
          rw [e1] at e2
          cases e2
          rfl
        | none =>
          rw [put_fst_new h2] at h
          have hlt : i1 < s.idGenerator := hb1 _ (lookupObjId_mem h1)
          omega
      | none =>
        by_cases hw : w1 = w2
        · exact hw
        · exfalso
          rw [put_snd_new h1, put_fst_new h1] at h
          have h2 : lookupObjId
              (({ idGenerator := s.idGenerator + 1,
                  idToObj := (s.idGenerator, w1) :: s.idToObj,
                  objToId := (w1, s.idGenerator) :: s.objToId } :
                InternStore α).objToId) w2 = lookupObjId s.objToId w2 :=
            (lookupObjId_cons w1 w2 s.idGenerator s.objToId).trans (if_neg hw)
          cases h3 : lookupObjId s.objToId w2 with
          | some i2 =>
            rw [put_fst_found (h2.trans h3)] at h
            have hlt : i2 < s.idGenerator := hb1 _ (lookupObjId_mem h3)
            omega
          | none =>
            rw [put_fst_new (h2.trans h3)] at h
            replace h : s.idGenerator + 1 = s.idGenerator := h
            omega
    · intro h
      subst h
      cases h1 : lookupObjId s.objToId w1 with
      | some i =>
        rw [put_snd_found h1, put_fst_found h1]
      | none =>
        rw [put_snd_new h1, put_fst_new h1]
        have h2 : lookupObjId ((w1, s.idGenerator) :: s.objToId) w1 =
            some s.idGenerator := by
          rw [lookupObjId_cons, if_pos rfl]
        rw [put_fst_found h2]
  refine ⟨main v1 v2, rfl, ?_⟩
  intro hobj
  show (put (put s val1.obj).2 val2.obj).1 = (put s val1.obj).1
  rw [(main val1.obj val2.obj)]
  exact hobj

/-- C3 witness: a concrete run over `Nat` objects from the empty store. -/
theorem C3_interning_equality_witness :
    ((put (put (⟨0, [], []⟩ : InternStore Nat) 5).2 5).1 =
        (put (⟨0, [], []⟩ : InternStore Nat) 5).1 ↔ (5 : Nat) = 5) ∧
    (value_to_key (⟨0, [], []⟩ : InternStore Nat) ⟨5, 9⟩).1.typeId = 9 ∧
    ((5 : Nat) = 5 →
      (value_to_key ((value_to_key (⟨0, [], []⟩ : InternStore Nat) ⟨5, 9⟩).2)
          ⟨5, 11⟩).1.id =
        (value_to_key (⟨0, [], []⟩ : InternStore Nat) ⟨5, 9⟩).1.id) :=
  C3_interning_equality ⟨0, [], []⟩ StoreWF.empty 5 5 ⟨5, 9⟩ ⟨5, 11⟩

/-- C8: on a well-formed store, `put` either returns the Id previously
assigned to an equal object or assigns the current generator value,
which is strictly greater than every previously assigned Id; the
generator never decreases, an existing Id-to-object binding survives the
call unchanged, and `get` after `put` returns the interned object. -/
theorem C8_put_monotonic {α : Type} [DecidableEq α] (s : InternStore α)
    (v : α) (hs : StoreWF s) :
    (lookupObjId s.objToId v = some (put s v).1 ∨
      ((put s v).1 = s.idGenerator ∧ ∀ p ∈ s.objToId, p.2 < (put s v).1)) ∧
    s.idGenerator ≤ (put s v).2.idGenerator ∧
    (∀ j o, lookupIdObj s.idToObj j = some o →
      lookupIdObj (put s v).2.idToObj j = some o) ∧
    get (put s v).2 (put s v).1 = some v := by
  obtain ⟨hb1, hb2, hcor⟩ := hs
  cases h : lookupObjId s.objToId v with
  | some i =>
    refine ⟨Or.inl (by rw [put_fst_found h]),
      by rw [put_snd_found h], ?_, ?_⟩
    · intro j o hj
      rw [put_snd_found h]
      exact hj
    · rw [put_snd_found h, put_fst_found h]
      exact hcor v i h
  | none =>
    refine ⟨Or.inr ⟨put_fst_new h, ?_⟩, ?_, ?_, ?_⟩
    · intro p hp
      rw [put_fst_new h]
      exact hb1 p hp
    · rw [put_snd_new h]
      exact Nat.le_succ _
    · intro j o hj
      have hlt : j < s.idGenerator := hb2 _ (lookupIdObj_mem hj)
      rw [put_snd_new h]
      show lookupIdObj ((s.idGenerator, v) :: s.idToObj) j = some o
      rw [lookupIdObj_cons, if_neg (by omega)]
      exact hj
    · rw [put_snd_new h, put_fst_new h]
      show lookupIdObj ((s.idGenerator, v) :: s.idToObj) s.idGenerator = some v
      rw [lookupIdObj_cons, if_pos rfl]

/-- C8 witness: a concrete `put` of a fresh object on the empty store. -/
theorem C8_put_monotonic_witness :
    (lookupObjId (⟨0, [], []⟩ : InternStore Nat).objToId 7 =
        some (put (⟨0, [], []⟩ : InternStore Nat) 7).1 ∨
      ((put (⟨0, [], []⟩ : InternStore Nat) 7).1 =
          (⟨0, [], []⟩ : InternStore Nat).idGenerator ∧
        ∀ p ∈ (⟨0, [], []⟩ : InternStore Nat).objToId,
          p.2 < (put (⟨0, [], []⟩ : InternStore Nat) 7).1)) ∧
    (⟨0, [], []⟩ : InternStore Nat).idGenerator ≤
      (put (⟨0, [], []⟩ : InternStore Nat) 7).2.idGenerator ∧
    (∀ j o,
      lookupIdObj (⟨0, [], []⟩ : InternStore Nat).idToObj j = some o →
      lookupIdObj (put (⟨0, [], []⟩ : InternStore Nat) 7).2.idToObj j =
        some o) ∧
    get (put (⟨0, [], []⟩ : InternStore Nat) 7).2
      (put (⟨0, [], []⟩ : InternStore Nat) 7).1 = some 7 :=
  C8_put_monotonic ⟨0, [], []⟩ 7 StoreWF.empty

/-- After `put`, looking the object up returns exactly the Id `put`
returned. -/
theorem lookupObjId_put_self [DecidableEq α] (s : InternStore α) (v : α) :
    lookupObjId (put s v).2.objToId v = some (put s v).1 := by
  cases h : lookupObjId s.objToId v with
  | some i =>
    rw [put_snd_found h, put_fst_found h]
    exact h
  | none =>
    rw [put_snd_new h, put_fst_new h]
    show lookupObjId ((v, s.idGenerator) :: s.objToId) v = some s.idGenerator
    rw [lookupObjId_cons, if_pos rfl]

/-- C4 counterexample: create a scheduler, intern a string through its
context, then create a second scheduler in the same process.  The
second scheduler's store is not empty and still maps the first
scheduler's string to its old Id — contrary to the claim that a new
scheduler starts with an empty store with nothing carried over. -/
theorem C4_second_scheduler_store_not_empty :
    (newSchedulerContext
        ((schedulerIntern (newSchedulerContext processInit).2
          (PyObj.strv "x")).2)).1.objToId ≠ [] ∧
    lookupObjId
      (newSchedulerContext
        ((schedulerIntern (newSchedulerContext processInit).2
          (PyObj.strv "x")).2)).1.objToId (PyObj.strv "x") = some 2 := by
  constructor
  · decide
  · decide

/-- C4 amended: the `ExternContext` is an `ffi.init_once` process-wide
singleton, not per scheduler: creating a second scheduler returns the
very same store and process state, and a new scheduler's store still
contains every Id interned through any earlier scheduler of the
process. -/
theorem C4_amended_process_singleton (p : PyProcess) (v : PyObj) :
    (newSchedulerContext (newSchedulerContext p).2).1 =
      (newSchedulerContext p).1 ∧
    (newSchedulerContext (newSchedulerContext p).2).2 =
      (newSchedulerContext p).2 ∧
    lookupObjId (newSchedulerContext (schedulerIntern p v).2).1.objToId v =
      some (schedulerIntern p v).1 := by
  obtain ⟨o⟩ := p
  cases o with
  | none =>
    refine ⟨rfl, rfl, ?_⟩
    simp only [schedulerIntern, newSchedulerContext, nativeContext]
    exact lookupObjId_put_self externContextInit v
  | some s =>
    refine ⟨rfl, rfl, ?_⟩
    simp only [schedulerIntern, newSchedulerContext, nativeContext]
    exact lookupObjId_put_self s v

/-- C5 counterexample: thread 1 runs `execute(r1)` and completes its
`schedule` section; thread 2's `execute(r2)` then runs its own
`schedule`.  Thread 2's `root_entries` succeeds and returns r2's root
products — the second run is not rejected — while thread 1's
`root_entries` is the call that raises the concurrent-execution
`AssertionError`. -/
theorem C5_second_execute_returns_products :
    root_entriesLS (scheduleLS (scheduleLS ⟨none⟩ ⟨1, [(0, 0)]⟩) ⟨2, [(5, 6)]⟩)
        ⟨2, [(5, 6)]⟩ = .ok [(5, 6)] ∧
    root_entriesLS (scheduleLS (scheduleLS ⟨none⟩ ⟨1, [(0, 0)]⟩) ⟨2, [(5, 6)]⟩)
        ⟨1, [(0, 0)]⟩ = .error concurrencyErrorMsg :=
  ⟨rfl, rfl⟩

/-- C5 amended: when a second `execute` overlaps a run in progress, the
second request replaces the first as the scheduler's current request;
the second caller's `root_entries` returns its root products normally,
and the concurrent-execution error is raised by `root_entries` for the
displaced first request. -/
theorem C5_amended_concurrent_execute (st : LSState)
    (r1 r2 : ExecutionRequest) (h : r1.reqId ≠ r2.reqId) :
    root_entriesLS (scheduleLS (scheduleLS st r1) r2) r2 = .ok r2.roots ∧
    root_entriesLS (scheduleLS (scheduleLS st r1) r2) r1 =
      .error concurrencyErrorMsg := by
  constructor
  · simp [root_entriesLS, scheduleLS, execution_add_roots]
  · simp [root_entriesLS, scheduleLS, execution_add_roots, Ne.symm h]

/-- C5 witness: the amended behaviour at two concrete requests. -/
theorem C5_amended_witness :
    root_entriesLS (scheduleLS (scheduleLS ⟨none⟩ ⟨1, [(0, 0)]⟩) ⟨2, [(5, 6)]⟩)
        ⟨2, [(5, 6)]⟩ =
      .ok (⟨2, [(5, 6)]⟩ : ExecutionRequest).roots ∧
    root_entriesLS (scheduleLS (scheduleLS ⟨none⟩ ⟨1, [(0, 0)]⟩) ⟨2, [(5, 6)]⟩)
        ⟨1, [(0, 0)]⟩ = .error concurrencyErrorMsg :=
  C5_amended_concurrent_execute ⟨none⟩ ⟨1, [(0, 0)]⟩ ⟨2, [(5, 6)]⟩ (by decide)

/-- C6: `invalidate_files` passes to the native invalidation exactly the
given filenames together with each one's direct parent directory
(`os.path.dirname`), returns the count the native call reports, and is
total. -/
theorem C6_invalidate_files_targets (g : ProductGraphModel)
    (direct : List String) :
    invalidate_files g direct = graph_invalidate g (invalidationTargets direct) ∧
    ∀ p, p ∈ invalidationTargets direct ↔
      p ∈ direct ∨ ∃ f ∈ direct, p = dirname f := by
  refine ⟨rfl, ?_⟩
  intro p
  simp only [invalidationTargets, Finset.mem_union, List.mem_toFinset,
    List.mem_map]
  constructor
  · rintro (hp | ⟨f, hf, rfl⟩)
    · exact Or.inl hp
    · exact Or.inr ⟨f, hf, rfl⟩
  · rintro (hp | ⟨f, hf, rfl⟩)
    · exact Or.inl hp
    · exact Or.inr ⟨f, hf, rfl⟩

/-- C7 counterexample: a runnable that raises a `BaseException`-only
exception (e.g. `KeyboardInterrupt`), which `except Exception` does not
catch: `extern_invoke_runnable` propagates it instead of returning a
`(Value, is_throw)` pair. -/
theorem C7_base_exception_propagates :
    extern_invoke_runnable (fun _ => .raised ⟨(7 : Nat), false⟩) [] =
      .raised ⟨7, false⟩ ∧
    (.raised ⟨7, false⟩ : PyResult Nat (RunnableComplete Nat)) ≠
      .ok ⟨7, true⟩ :=
  ⟨rfl, by decide⟩

/-- C7 amended: `extern_invoke_runnable` never propagates an
`Exception`-derived exception: a normal return yields
`(value, is_throw = false)`, a raised `Exception` yields
`(the exception, is_throw = true)`, and only `BaseException`-only
exceptions (not caught by `except Exception`) propagate. -/
theorem C7_amended_invoke_runnable {α : Type}
    (runnable : List α → PyResult α α) (args : List α) :
    (∀ e, extern_invoke_runnable runnable args = .raised e →
      e.isException = false) ∧
    (∀ v, runnable args = .ok v →
      extern_invoke_runnable runnable args = .ok ⟨v, false⟩) ∧
    (∀ e, runnable args = .raised e → e.isException = true →
      extern_invoke_runnable runnable args = .ok ⟨e.val, true⟩) ∧
    (∀ e, runnable args = .raised e → e.isException = false →
      extern_invoke_runnable runnable args = .raised e) := by
  have hok : ∀ v, runnable args = .ok v →
      extern_invoke_runnable runnable args = .ok ⟨v, false⟩ := by
    intro v hv
    unfold extern_invoke_runnable
    rw [hv]
  have hexc : ∀ e, runnable args = .raised e → e.isException = true →
      extern_invoke_runnable runnable args = .ok ⟨e.val, true⟩ := by
    intro e hr hex
    unfold extern_invoke_runnable
    rw [hr]
    show (if e.isException = true then
        PyResult.ok (RunnableComplete.mk e.val true)
      else PyResult.raised e) = PyResult.ok (RunnableComplete.mk e.val true)
    rw [if_pos hex]
  have hbase : ∀ e, runnable args = .raised e → e.isException = false →
      extern_invoke_runnable runnable args = .raised e := by
    intro e hr hex
    unfold extern_invoke_runnable
    rw [hr]
    show (if e.isException = true then
        PyResult.ok (RunnableComplete.mk e.val true)
      else PyResult.raised e) = PyResult.raised e
    rw [if_neg (by simp [hex])]
  refine ⟨?_, hok, hexc, hbase⟩
  intro e he
  cases hr : runnable args with
  | ok v =>
    rw [hok v hr] at he
    exact absurd he (by simp)
  | raised e' =>
    by_cases hex : e'.isException = true
    · rw [hexc e' hr hex] at he
      exact absurd he (by simp)
    · have hef : e'.isException = false := by simpa using hex
      rw [hbase e' hr hef] at he
      cases he
      exact hef

/-- C7 witness: a raised `Exception` is wrapped with `is_throw = true`. -/
theorem C7_amended_witness :
    extern_invoke_runnable (fun _ => .raised ⟨(3 : Nat), true⟩) [] =
      .ok ⟨3, true⟩ :=
  (C7_amended_invoke_runnable (fun _ => .raised ⟨(3 : Nat), true⟩) []).2.2.1
    ⟨3, true⟩ rfl rfl

/-- C10: when the object has the named field, `extern_project` returns
the projected value unchanged if its runtime type is exactly the
requested one, and otherwise returns exactly the result of applying the
requested type's constructor — a type mismatch by itself never raises. -/
theorem C10_extern_project {α : Type} (H : PyHost α) (obj : α)
    (field : String) (typeId : Nat) (p : α)
    (h : H.getattr obj field = some p) :
    (H.typeOf p = typeId → extern_project H obj field typeId = .ok p) ∧
    (H.typeOf p ≠ typeId →
      extern_project H obj field typeId = H.construct typeId p) := by
  constructor
  · intro ht
    unfold extern_project
    rw [h]
    show (if H.typeOf p ≠ typeId then H.construct typeId p
      else PyResult.ok p) = PyResult.ok p
    rw [if_neg (by simp [ht])]
  · intro ht
    unfold extern_project
    rw [h]
    show (if H.typeOf p ≠ typeId then H.construct typeId p
      else PyResult.ok p) = H.construct typeId p
    rw [if_pos ht]

/-- A tiny concrete host used by the C10 witness: objects are numbers,
`getattr o "deps"` is `o + 1`, an object's type is itself, and a
constructor call adds the type id. -/
def c10Host : PyHost Nat where
  getattr o f := if f = "deps" then some (o + 1) else none
  typeOf o := o
  construct t o := .ok (t + o)
  attrError o _ := ⟨o, true⟩

/-- C10 witness: both branches at concrete inputs. -/
theorem C10_extern_project_witness :
    (c10Host.typeOf 5 = 5 → extern_project c10Host 4 "deps" 5 = .ok 5) ∧
    (c10Host.typeOf 5 ≠ 5 →
      extern_project c10Host 4 "deps" 5 = c10Host.construct 5 5) :=
  C10_extern_project c10Host 4 "deps" 5 5 rfl

/-- C1 counterexample: `root_entries` decodes `state_tag` 3 to a
`Throw` wrapping the state value, not to a `Noop` as the claim (and the
spec's encoding table) states. -/
theorem C1_tag3_decodes_to_Throw :
    decodeRootState 3 (7 : Nat) = .ok (some (.Throw 7)) ∧
    (some (NodeState.Throw (7 : Nat)) ≠ some (NodeState.Noop 7)) :=
  ⟨rfl, by decide⟩

/-- C1 amended: `root_entries` pairs each requested root with the
decoded state of the corresponding raw node: tag 0 yields no state,
tag 1 a `Return`, and tags 2 and 3 both a `Throw` wrapping
`state_value`; any other tag is a `ValueError` that aborts the whole
call. -/
theorem C1_amended_root_entries_decode {ρ α : Type} (reqRoots : List ρ)
    (raws : List (RawNode α)) (h : ∀ n ∈ raws, n.state_tag ≤ 3) :
    root_entries reqRoots raws = .ok ((reqRoots.zip raws).map fun p =>
      (p.1, if p.2.state_tag = 0 then none
        else if p.2.state_tag = 1 then some (NodeState.Return p.2.state_value)
        else some (NodeState.Throw p.2.state_value))) ∧
    (∀ (tag : Nat) (v : α), 4 ≤ tag →
      decodeRootState tag v = .error "Unrecognized State type") := by
  constructor
  · have main : ∀ l : List (ρ × RawNode α), (∀ p ∈ l, p.2.state_tag ≤ 3) →
        decodeRoots l = .ok (l.map fun p =>
          (p.1, if p.2.state_tag = 0 then none
            else if p.2.state_tag = 1 then some (NodeState.Return p.2.state_value)
            else some (NodeState.Throw p.2.state_value))) := by
      intro l hl
      induction l with
      | nil => rfl
      | cons p rest ih =>
        have h0 := hl p (by simp)
        have hrest : ∀ q ∈ rest, q.2.state_tag ≤ 3 := fun q hq =>
          hl q (by simp [hq])
        have ihr := ih hrest
        have ht : p.2.state_tag = 0 ∨ p.2.state_tag = 1 ∨
            p.2.state_tag = 2 ∨ p.2.state_tag = 3 := by omega
        simp only [decodeRoots]
        rw [ihr]
        simp only [List.map_cons]
        rcases ht with ht | ht | ht | ht <;> rw [ht] <;> rfl
    exact main (reqRoots.zip raws) fun p hp => h p.2 (List.of_mem_zip hp).2
  · intro tag v h4
    unfold decodeRootState
    rw [if_neg (by omega), if_neg (by omega), if_neg (by omega),
      if_neg (by omega)]

/-- C1 amended witness: one root of each decodable tag. -/
theorem C1_amended_witness :
    root_entries [10, 11, 12, 13]
        [(⟨0, 5⟩ : RawNode Nat), ⟨1, 6⟩, ⟨2, 7⟩, ⟨3, 8⟩] =
      .ok [(10, none), (11, some (.Return 6)), (12, some (.Throw 7)),
        (13, some (.Throw 8))] ∧
    (∀ (tag : Nat) (v : Nat), 4 ≤ tag →
      decodeRootState tag v = .error "Unrecognized State type") := by
  have h := C1_amended_root_entries_decode [10, 11, 12, 13]
    [(⟨0, 5⟩ : RawNode Nat), ⟨1, 6⟩, ⟨2, 7⟩, ⟨3, 8⟩] (by decide)
  exact ⟨h.1, h.2⟩

/-! ## Matcher lemmas -/

/-- The regex of a literal character sequence followed by `e`. -/
def catList (l : List Char) (e : RE) : RE :=
  l.foldr (fun c acc => RE.cat (RE.chr c) acc) e

theorem matchPre_emp (s : List Char) : matchPre RE.emp s = false := by
  induction s with
  | nil => rfl
  | cons c cs ih => simp [matchPre, nullAt, deriv, ih]

theorem matchPre_alt (e1 e2 : RE) (s : List Char) :
    matchPre (RE.alt e1 e2) s = (matchPre e1 s || matchPre e2 s) := by
  induction s generalizing e1 e2 with
  | nil => rfl
  | cons c cs ih =>
    show (nullAt false (RE.alt e1 e2) ||
      matchPre (deriv c (RE.alt e1 e2)) cs) = _
    simp only [nullAt, deriv, ih, matchPre]
    cases nullAt false e1 <;> cases nullAt false e2 <;>
      cases matchPre (deriv c e1) cs <;> cases matchPre (deriv c e2) cs <;> rfl

theorem matchPre_cat_emp (e : RE) (s : List Char) :
    matchPre (RE.cat RE.emp e) s = false := by
  induction s with
  | nil => rfl
  | cons c cs ih => simp [matchPre, nullAt, deriv, ih]

theorem matchPre_cat_eps (e : RE) (s : List Char) :
    matchPre (RE.cat RE.eps e) s = matchPre e s := by
  cases s with
  | nil => rfl
  | cons c cs =>
    show (nullAt false (RE.cat RE.eps e) ||
      matchPre (deriv c (RE.cat RE.eps e)) cs) = _
    simp [matchPre, nullAt, deriv, matchPre_alt, matchPre_cat_emp]

theorem matchPre_lit_cons (c : Char) (e : RE) (input : List Char) :
    matchPre (RE.cat (RE.chr c) e) (c :: input) = matchPre e input := by
  show (nullAt false (RE.cat (RE.chr c) e) ||
    matchPre (deriv c (RE.cat (RE.chr c) e)) input) = _
  simp [nullAt, deriv, matchPre_cat_eps]

/-- A literal chain consumes exactly itself: matching `stem` followed by
`e` against `stem ++ input` is matching `e` against `input`. -/
theorem matchPre_catList (stem : List Char) (e : RE) (input : List Char) :
    matchPre (catList stem e) (stem ++ input) = matchPre e input := by
  induction stem with
  | nil => rfl
  | cons c cs ih =>
    show matchPre (RE.cat (RE.chr c) (catList cs e)) (c :: (cs ++ input)) = _
    rw [matchPre_lit_cons]
    exact ih

/-! ## Lemmas about Python `str.replace` -/

theorem replaceFuel_nil (pat rep : List Char) (f : Nat) :
    replaceFuel pat rep f [] = [] := by
  cases f <;> rfl

/-- Replacing a single character is a per-character expansion. -/
theorem replaceFuel_singleton (a : Char) (rep : List Char) :
    ∀ (l : List Char) (f : Nat), l.length ≤ f →
    replaceFuel [a] rep f l =
      l.flatMap (fun c => if c = a then rep else [c]) := by
  intro l
  induction l with
  | nil =>
    intro f _
    rw [replaceFuel_nil, List.flatMap_nil]
  | cons c rest ih =>
    intro f hf
    cases f with
    | zero => simp at hf
    | succ f' =>
      have hlen : rest.length ≤ f' := by
        simp only [List.length_cons] at hf
        omega
      rw [List.flatMap_cons]
      show (if [a].isPrefixOf (c :: rest) = true ∧ [a] ≠ [] then
          rep ++ replaceFuel [a] rep f' (rest.drop ([a].length - 1))
        else c :: replaceFuel [a] rep f' rest) = _
      by_cases hca : c = a
      · subst hca
        rw [if_pos ⟨by simp [List.isPrefixOf], by simp⟩]
        show rep ++ replaceFuel [c] rep f' rest = _
        rw [ih f' hlen, if_pos rfl]
      · rw [if_neg ?_, ih f' hlen, if_neg hca, List.singleton_append]
        rintro ⟨h1, -⟩
        simp [List.isPrefixOf] at h1
        exact hca h1.symm

/-- A pattern whose first character never occurs in the string replaces
nothing. -/
theorem replaceFuel_head_notin (a : Char) (pat rep : List Char) :
    ∀ (l : List Char) (f : Nat), a ∉ l → l.length ≤ f →
    replaceFuel (a :: pat) rep f l = l := by
  intro l
  induction l with
  | nil => intro f _ _; exact replaceFuel_nil ..
  | cons c rest ih =>
    intro f hl hf
    cases f with
    | zero => simp at hf
    | succ f' =>
      have hlen : rest.length ≤ f' := by
        simp only [List.length_cons] at hf
        omega
      have hca : a ≠ c := fun h => hl (h ▸ List.mem_cons_self c rest)
      show (if (a :: pat).isPrefixOf (c :: rest) = true ∧ (a :: pat) ≠ [] then
          rep ++ replaceFuel (a :: pat) rep f' (rest.drop ((a :: pat).length - 1))
        else c :: replaceFuel (a :: pat) rep f' rest) = _
      rw [if_neg ?_, ih f' (fun h => hl (List.mem_cons_of_mem c h)) hlen]
      rintro ⟨h1, -⟩
      simp [List.isPrefixOf] at h1
      exact hca h1.1

theorem replaceL_singleton (a : Char) (rep l : List Char) :
    replaceL [a] rep l = l.flatMap (fun c => if c = a then rep else [c]) :=
  replaceFuel_singleton a rep l l.length le_rfl

theorem replaceL_head_notin (a : Char) (pat rep l : List Char)
    (h : a ∉ l) : replaceL (a :: pat) rep l = l :=
  replaceFuel_head_notin a pat rep l l.length h le_rfl

/-- The four-substitution pipeline of `glob_to_regex` on a glob made of
alphanumerics and `?`: because the later substitutions also rewrite the
output of the earlier ones, every `?` ends up as `[.]`. -/
theorem globSubstChain (l : List Char)
    (h : ∀ c ∈ l, c.isAlphanum = true ∨ c = '?') :
    replaceL ['*'] ['[', '^', '/', ']', '*']
      (replaceL ['*', '*', '/'] ['(', '?', ':', '.', '*', '/', ')', '?']
        (replaceL ['.'] ['[', '.', ']'] (replaceL ['?'] ['.'] l))) =
    l.flatMap (fun c => if c = '?' then ['[', '.', ']'] else [c]) := by
  have e1 : replaceL ['?'] ['.'] l =
      l.flatMap (fun c => if c = '?' then ['.'] else [c]) :=
    replaceL_singleton _ _ _
  rw [e1]
  have e2 : replaceL ['.'] ['[', '.', ']']
        (l.flatMap (fun c => if c = '?' then ['.'] else [c])) =
      (l.flatMap (fun c => if c = '?' then ['.'] else [c])).flatMap
        (fun c2 => if c2 = '.' then ['[', '.', ']'] else [c2]) :=
    replaceL_singleton _ _ _
  rw [e2, List.flatMap_assoc]
  have hpoint : l.flatMap (fun c =>
        (if c = '?' then ['.'] else [c]).flatMap
          (fun c2 => if c2 = '.' then ['[', '.', ']'] else [c2])) =
      l.flatMap (fun c => if c = '?' then ['[', '.', ']'] else [c]) := by
    apply List.flatMap_congr
    intro c hc
    rcases h c hc with hA | hq
    · have hnq : c ≠ '?' := fun he => by
        rw [he] at hA; exact absurd hA (by decide)
      have hnd : c ≠ '.' := fun he => by
        rw [he] at hA; exact absurd hA (by decide)
      simp [hnq, hnd]
    · subst hq
      decide
  rw [hpoint]
  have hstar : '*' ∉ l.flatMap
      (fun c => if c = '?' then ['[', '.', ']'] else [c]) := by
    intro hmem
    rw [List.mem_flatMap] at hmem
    obtain ⟨c, hcl, hcmem⟩ := hmem
    rcases h c hcl with hA | hq
    · have hnq : c ≠ '?' := fun he => by
        rw [he] at hA; exact absurd hA (by decide)
      rw [if_neg hnq] at hcmem
      simp only [List.mem_singleton] at hcmem
      rw [← hcmem] at hA
      exact absurd hA (by decide)
    · subst hq
      rw [if_pos rfl] at hcmem
      exact absurd hcmem (by decide)
  rw [replaceL_head_notin '*' ['*', '/'] _ _ hstar]
  exact replaceL_head_notin '*' [] _ _ hstar

/-- C2 counterexample: the code substitutes `.` → `[.]`, not `\.` as the
claim lists, and a `?` in the glob yields `[.]`, which does not match
the single character `x` — whereas the fragment `.` the claim promises
for `?` does. -/
theorem C2_substitutions_differ :
    glob_to_regex "." = "[.]" ∧
    globToRegexSpecced "." = "\\." ∧
    ("[.]" : String) ≠ "\\." ∧
    glob_to_regex "?" = "[.]" ∧
    reMatch (glob_to_regex "?") "x" = false ∧
    reMatch "." "x" = true := by
  refine ⟨by decide, by decide, by decide, by decide, by decide, by decide⟩

/-- C2 amended: the substitutions are `?` → `.`, `.` → `[.]`,
`**/` → `(?:.*/)?`, `*` → `[^/]*`, each applied to the whole result of
the previous one; consequently, on a glob of alphanumerics and `?`,
every `?` ends up as the fragment `[.]` — which matches only a literal
dot, not any single character — and a `.` also yields `[.]`, matching
only a literal dot. -/
theorem C2_amended_substitutions (l : List Char)
    (h : ∀ c ∈ l, c.isAlphanum = true ∨ c = '?') :
    globToRegexL l =
      l.flatMap (fun c => if c = '?' then ['[', '.', ']'] else [c]) ∧
    reMatch "[.]" "." = true ∧
    (∀ c : Char, c ≠ '.' → reMatch "[.]" ⟨[c]⟩ = false) := by
  refine ⟨?_, by decide, ?_⟩
  · have hchain := globSubstChain l h
    simp only [globToRegexL]
    rw [hchain]
    have hslash : '/' ∉ l.flatMap
        (fun c => if c = '?' then ['[', '.', ']'] else [c]) := by
      intro hmem
      rw [List.mem_flatMap] at hmem
      obtain ⟨c, hcl, hcmem⟩ := hmem
      rcases h c hcl with hA | hq
      · have hnq : c ≠ '?' := fun he => by
          rw [he] at hA; exact absurd hA (by decide)
        rw [if_neg hnq] at hcmem
        simp only [List.mem_singleton] at hcmem
        rw [← hcmem] at hA
        exact absurd hA (by decide)
      · subst hq
        rw [if_pos rfl] at hcmem
        exact absurd hcmem (by decide)
    have hlast : (l.flatMap
        (fun c => if c = '?' then ['[', '.', ']'] else [c])).getLast? ≠
          some '/' :=
      fun hE => hslash (List.mem_of_getLast?_eq_some hE)
    rw [if_neg hlast]
    rcases hX : l.flatMap (fun c => if c = '?' then ['[', '.', ']'] else [c])
      with _ | ⟨c, rest⟩
    · rfl
    · have hcns : c ≠ '/' := by
        intro he
        exact hslash (by rw [hX, he]; exact List.mem_cons_self _ _)
      show (if c = '/' then '^' :: rest else c :: rest) = c :: rest
      rw [if_neg hcns]
  · intro c hc
    have hp : parseRegexL ['[', '.', ']'] =
        some (RE.cat (RE.cls false ['.']) RE.eps) := by decide
    show (match parseRegexL ['[', '.', ']'] with
      | some e => matchPre e [c]
      | none => false) = false
    rw [hp]
    show (nullAt false (RE.cat (RE.cls false ['.']) RE.eps) ||
      matchPre (deriv c (RE.cat (RE.cls false ['.']) RE.eps)) []) = false
    have hcon : (['.'].contains c) = false := by
      simpa using hc
    simp [nullAt, deriv, matchPre, hcon, hc]

/-- C2 amended witness: the glob `a?b` translates to `a[.]b`, and the
`[.]` fragment a `?` produces matches `.` but not `x`. -/
theorem C2_amended_witness :
    globToRegexL "a?b".data =
      "a?b".data.flatMap (fun c => if c = '?' then ['[', '.', ']'] else [c]) ∧
    reMatch "[.]" "." = true ∧
    reMatch "[.]" ⟨['x']⟩ = false := by
  have h := C2_amended_substitutions "a?b".data (by decide)
  exact ⟨h.1, h.2.1, h.2.2 'x' (by decide)⟩

/-! ## Parser lemmas

The fuel-indexed parse `parseP` behaves like a fuel-free parse as soon
as the fuel is large enough; `3 * s.length + k` units suffice (with a
small constant `k` depending on the grammar level).  The lemmas below
make this precise: the remainder a successful parse returns is a
suffix-bound of the input, and the result does not depend on the fuel
once it is sufficient. -/

theorem parseClsChars_remainder :
    ∀ (l cs r : List Char), parseClsChars l = some (cs, r) →
    r.length < l.length := by
  intro l
  induction l with
  | nil => intro cs r h; simp [parseClsChars] at h
  | cons c rest ih =>
    intro cs r h
    simp only [parseClsChars] at h
    by_cases hc : c = ']'
    · rw [if_pos hc] at h
      cases h
      simp only [List.length_cons]
      omega
    · rw [if_neg hc] at h
      cases hrec : parseClsChars rest with
      | none => rw [hrec] at h; simp at h
      | some q =>
        obtain ⟨cs', r'⟩ := q
        rw [hrec] at h
        replace h : some (c :: cs', r') = some (cs, r) := h
        cases h
        have := ih _ _ hrec
        simp only [List.length_cons]
        omega

theorem parseQuant_snd_le (a : RE) (l : List Char) :
    (parseQuant a l).2.length ≤ l.length := by
  cases l with
  | nil => simp [parseQuant]
  | cons c rest =>
    simp only [parseQuant]
    split_ifs <;> simp [List.length_cons]

/-- When the next character is not a quantifier, `parseQuant` consumes
nothing. -/
theorem parseQuant_no_quant (a : RE) (l : List Char)
    (h : ∀ c, l.head? = some c → c ≠ '*' ∧ c ≠ '?') :
    parseQuant a l = (a, l) := by
  cases l with
  | nil => rfl
  | cons c rest =>
    have hc := h c rfl
    simp [parseQuant, hc.1, hc.2]

/-- Unfolding equation of `parseP` at level `alt`. -/
theorem parseP_alt_eq (f : Nat) (s : List Char) :
    parseP (f + 1) PMode.alt s = (parseP f PMode.seq s).bind (fun p =>
      match p.2 with
      | [] => some (p.1, [])
      | c :: r2 =>
        if c = '|' then
          (parseP f PMode.alt r2).bind (fun q => some (RE.alt p.1 q.1, q.2))
        else some (p.1, c :: r2)) := rfl

/-- Unfolding equation of `parseP` at level `seq`, empty input. -/
theorem parseP_seq_nil (f : Nat) :
    parseP (f + 1) PMode.seq [] = some (RE.eps, []) := rfl

/-- Unfolding equation of `parseP` at level `seq`. -/
theorem parseP_seq_cons (f : Nat) (c : Char) (rest : List Char) :
    parseP (f + 1) PMode.seq (c :: rest) =
      if c = ')' ∨ c = '|' then some (RE.eps, c :: rest)
      else (parseP f PMode.atom (c :: rest)).bind (fun p =>
        (parseP f PMode.seq (parseQuant p.1 p.2).2).bind (fun q =>
          some (RE.cat (parseQuant p.1 p.2).1 q.1, q.2))) := rfl

/-- Unfolding equation of `parseP` at level `atom`, empty input. -/
theorem parseP_atom_nil (f : Nat) :
    parseP (f + 1) PMode.atom [] = none := rfl

/-- Unfolding equation of `parseP` at level `atom`. -/
theorem parseP_atom_cons (f : Nat) (c : Char) (rest : List Char) :
    parseP (f + 1) PMode.atom (c :: rest) =
      if c = '(' then
        (parseP f PMode.alt
            (if rest.take 2 = ['?', ':'] then rest.drop 2 else rest)).bind
          (fun p =>
            match p.2 with
            | [] => none
            | c2 :: r2 => if c2 = ')' then some (p.1, r2) else none)
      else if c = '[' then
        if rest.head? = some '^' then
          (parseClsChars rest.tail).bind (fun p => some (RE.cls true p.1, p.2))
        else
          (parseClsChars rest).bind (fun p => some (RE.cls false p.1, p.2))
      else if c = '.' then some (RE.dot, rest)
      else if c = '$' then some (RE.endAnchor, rest)
      else if c = '\\' then
        match rest with
        | [] => none
        | c2 :: r2 => some (RE.chr c2, r2)
      else if c = '*' ∨ c = '?' ∨ c = '+' ∨ c = '|' ∨ c = ')' ∨ c = '^' then
        none
      else some (RE.chr c, rest) := rfl

/-- A successful parse leaves a remainder no longer than its input; an
atom always consumes at least one character. -/
theorem parseP_remainder :
    ∀ (f : Nat) (m : PMode) (s : List Char) (e : RE) (r : List Char),
    parseP f m s = some (e, r) →
    r.length ≤ s.length ∧ (m = PMode.atom → r.length < s.length) := by
  intro f
  induction f with
  | zero => intro m s e r h; simp [parseP] at h
  | succ f ih =>
    intro m s e r h
    cases m with
    | alt =>
      refine ⟨?_, by simp⟩
      rw [parseP_alt_eq] at h
      rw [Option.bind_eq_some] at h
      obtain ⟨⟨e1, r1⟩, h1, h2⟩ := h
      have hr1 := (ih PMode.seq s e1 r1 h1).1
      cases r1 with
      | nil =>
        cases h2
        simp
      | cons c r2 =>
        simp only at h2
        by_cases hc : c = '|'
        · rw [if_pos hc, Option.bind_eq_some] at h2
          obtain ⟨⟨e2, r3⟩, h3, h4⟩ := h2
          cases h4
          have hr3 := (ih PMode.alt r2 e2 r3 h3).1
          show r3.length ≤ s.length
          simp only [List.length_cons] at hr1
          omega
        · rw [if_neg hc] at h2
          cases h2
          exact hr1
    | seq =>
      refine ⟨?_, by simp⟩
      cases s with
      | nil =>
        rw [parseP_seq_nil] at h
        cases h
        simp
      | cons c rest =>
        rw [parseP_seq_cons] at h
        by_cases hc : c = ')' ∨ c = '|'
        · rw [if_pos hc] at h
          cases h
          simp
        · rw [if_neg hc, Option.bind_eq_some] at h
          obtain ⟨⟨a, r1⟩, h1, h2⟩ := h
          rw [Option.bind_eq_some] at h2
          obtain ⟨⟨b, r3⟩, h3, h4⟩ := h2
          cases h4
          have hr1 := (ih PMode.atom (c :: rest) a r1 h1).2 rfl
          have hq := parseQuant_snd_le a r1
          have hr3 := (ih PMode.seq (parseQuant a r1).2 b r3 h3).1
          show r3.length ≤ (c :: rest).length
          omega
    | atom =>
      have hboth : r.length < s.length := by
        cases s with
        | nil =>
          rw [parseP_atom_nil] at h
          cases h
        | cons c rest =>
          rw [parseP_atom_cons] at h
          by_cases h1 : c = '('
          · rw [if_pos h1, Option.bind_eq_some] at h
            obtain ⟨⟨e1, r1⟩, hg, h2⟩ := h
            have hr1 := (ih PMode.alt _ e1 r1 hg).1
            have hb : (if rest.take 2 = ['?', ':'] then rest.drop 2
                else rest).length ≤ rest.length := by
              split_ifs <;> simp [List.length_drop]
            cases r1 with
            | nil => cases h2
            | cons c2 r2 =>
              simp only at h2
              by_cases hc2 : c2 = ')'
              · rw [if_pos hc2] at h2
                cases h2
                simp only [List.length_cons] at hr1 ⊢
                omega
              · rw [if_neg hc2] at h2
                cases h2
          · rw [if_neg h1] at h
            by_cases h2 : c = '['
            · rw [if_pos h2] at h
              by_cases h3 : rest.head? = some '^'
              · rw [if_pos h3, Option.bind_eq_some] at h
                obtain ⟨⟨cs, r1⟩, hcls, h4⟩ := h
                cases h4
                have := parseClsChars_remainder _ _ _ hcls
                have htl : rest.tail.length ≤ rest.length := by
                  cases rest <;> simp
                simp only [List.length_cons]
                omega
              · rw [if_neg h3, Option.bind_eq_some] at h
                obtain ⟨⟨cs, r1⟩, hcls, h4⟩ := h
                cases h4
                have := parseClsChars_remainder _ _ _ hcls
                simp only [List.length_cons]
                omega
            · rw [if_neg h2] at h
              by_cases h3 : c = '.'
              · rw [if_pos h3] at h
                cases h
                simp
              · rw [if_neg h3] at h
                by_cases h4 : c = '$'
                · rw [if_pos h4] at h
                  cases h
                  simp
                · rw [if_neg h4] at h
                  by_cases h5 : c = '\\'
                  · rw [if_pos h5] at h
                    cases rest with
                    | nil => cases h
                    | cons c2 r2 =>
                      simp only at h
                      cases h
                      simp only [List.length_cons]
                      omega
                  · rw [if_neg h5] at h
                    by_cases h6 : c = '*' ∨ c = '?' ∨ c = '+' ∨ c = '|' ∨
                        c = ')' ∨ c = '^'
                    · rw [if_pos h6] at h
                      cases h
                    · rw [if_neg h6] at h
                      cases h
                      simp
      exact ⟨Nat.le_of_lt hboth, fun _ => hboth⟩

/-- Fuel sufficient for `parseP` to be fuel-independent on `s`. -/
def needFuel : PMode → List Char → Nat
  | PMode.alt, s => 3 * s.length + 3
  | PMode.seq, s => 3 * s.length + 2
  | PMode.atom, s => 3 * s.length + 1

/-- Once the fuel reaches `needFuel`, the parse result no longer
depends on it. -/
theorem parseP_fuel_eq :
    ∀ (f g : Nat) (m : PMode) (s : List Char),
    needFuel m s ≤ f → needFuel m s ≤ g → parseP f m s = parseP g m s := by
  intro f
  induction f using Nat.strong_induction_on with
  | _ f ih =>
    intro g m s hf hg
    have hpos : 1 ≤ needFuel m s := by cases m <;> simp [needFuel]
    cases f with
    | zero => omega
    | succ f' =>
      cases g with
      | zero => omega
      | succ g' =>
        cases m with
        | alt =>
          simp only [needFuel] at hf hg
          rw [parseP_alt_eq, parseP_alt_eq]
          have hseq : parseP f' PMode.seq s = parseP g' PMode.seq s :=
            ih f' (by omega) g' PMode.seq s (by simp [needFuel]; omega)
              (by simp [needFuel]; omega)
          rw [hseq]
          cases hs : parseP g' PMode.seq s with
          | none => rfl
          | some p =>
            obtain ⟨e1, r1⟩ := p
            have hr1 : r1.length ≤ s.length :=
              (parseP_remainder g' PMode.seq s e1 r1 hs).1
            simp only [Option.some_bind]
            cases r1 with
            | nil => rfl
            | cons c r2 =>
              simp only [List.length_cons] at hr1
              by_cases hc : c = '|'
              · simp only [if_pos hc]
                have halt : parseP f' PMode.alt r2 = parseP g' PMode.alt r2 :=
                  ih f' (by omega) g' PMode.alt r2 (by simp [needFuel]; omega)
                    (by simp [needFuel]; omega)
                rw [halt]
              · simp only [if_neg hc]
        | seq =>
          simp only [needFuel] at hf hg
          cases s with
          | nil => rw [parseP_seq_nil, parseP_seq_nil]
          | cons c rest =>
            rw [parseP_seq_cons, parseP_seq_cons]
            simp only [List.length_cons] at hf hg
            by_cases hc : c = ')' ∨ c = '|'
            · simp only [if_pos hc]
            · simp only [if_neg hc]
              have hatom : parseP f' PMode.atom (c :: rest) =
                  parseP g' PMode.atom (c :: rest) :=
                ih f' (by omega) g' PMode.atom (c :: rest)
                  (by simp [needFuel]; omega) (by simp [needFuel]; omega)
              rw [hatom]
              cases ha : parseP g' PMode.atom (c :: rest) with
              | none => rfl
              | some p =>
                obtain ⟨a, r1⟩ := p
                have hr1 : r1.length < (c :: rest).length :=
                  (parseP_remainder g' PMode.atom _ a r1 ha).2 rfl
                simp only [List.length_cons] at hr1
                simp only [Option.some_bind]
                have hq := parseQuant_snd_le a r1
                have hseq2 : parseP f' PMode.seq (parseQuant a r1).2 =
                    parseP g' PMode.seq (parseQuant a r1).2 :=
                  ih f' (by omega) g' PMode.seq _ (by simp [needFuel]; omega)
                    (by simp [needFuel]; omega)
                rw [hseq2]
        | atom =>
          simp only [needFuel] at hf hg
          cases s with
          | nil => rw [parseP_atom_nil, parseP_atom_nil]
          | cons c rest =>
            rw [parseP_atom_cons, parseP_atom_cons]
            simp only [List.length_cons] at hf hg
            by_cases h1 : c = '('
            · simp only [if_pos h1]
              have hb : (if rest.take 2 = ['?', ':'] then rest.drop 2
                  else rest).length ≤ rest.length := by
                split_ifs <;> simp [List.length_drop]
              have halt : parseP f' PMode.alt
                    (if rest.take 2 = ['?', ':'] then rest.drop 2 else rest) =
                  parseP g' PMode.alt
                    (if rest.take 2 = ['?', ':'] then rest.drop 2 else rest) :=
                ih f' (by omega) g' PMode.alt _ (by simp [needFuel]; omega)
                  (by simp [needFuel]; omega)
              rw [halt]
            · simp only [if_neg h1]

/-- Characters that are plain literals both for the glob substitutions
and in the emitted regex syntax. -/
def safeChar (c : Char) : Bool :=
  c.isAlphanum || c = '/' || c = '-' || c = '_'

/-- Parsing a literal stem followed by anything: each safe character
becomes a `chr` atom, prepended to the parse of the rest. -/
theorem parseP_seq_lit :
    ∀ (stem : List Char) (m : Nat) (tail : List Char),
    1 ≤ m → (∀ c ∈ stem, safeChar c = true) →
    (∀ c, tail.head? = some c → c ≠ '*' ∧ c ≠ '?') →
    parseP (stem.length + m) PMode.seq (stem ++ tail) =
      (parseP m PMode.seq tail).map (fun p => (catList stem p.1, p.2)) := by
  intro stem
  induction stem with
  | nil =>
    intro m tail _ _ _
    simp only [List.length_nil, Nat.zero_add, List.nil_append]
    cases parseP m PMode.seq tail with
    | none => rfl
    | some p => rfl
  | cons c cs ih =>
    intro m tail hm hsafe hhead
    have hc : safeChar c = true := hsafe c (List.mem_cons_self c cs)
    have harith : (c :: cs).length + m = (cs.length + m) + 1 := by
      simp only [List.length_cons]
      omega
    rw [harith, List.cons_append, parseP_seq_cons]
    rw [if_neg (by rintro (rfl | rfl) <;> exact absurd hc (by decide))]
    have hatom : parseP (cs.length + m) PMode.atom (c :: (cs ++ tail)) =
        some (RE.chr c, cs ++ tail) := by
      have h2 : cs.length + m = (cs.length + m - 1) + 1 := by omega
      rw [h2, parseP_atom_cons]
      rw [if_neg (by rintro rfl; exact absurd hc (by decide)),
        if_neg (by rintro rfl; exact absurd hc (by decide)),
        if_neg (by rintro rfl; exact absurd hc (by decide)),
        if_neg (by rintro rfl; exact absurd hc (by decide)),
        if_neg (by rintro rfl; exact absurd hc (by decide)),
        if_neg (by rintro (rfl | rfl | rfl | rfl | rfl | rfl) <;>
          exact absurd hc (by decide))]
    rw [hatom]
    simp only [Option.some_bind]
    have hq : parseQuant (RE.chr c) (cs ++ tail) = (RE.chr c, cs ++ tail) := by
      apply parseQuant_no_quant
      intro d hd
      cases cs with
      | nil =>
        exact hhead d (by simpa using hd)
      | cons c2 cs2 =>
        rw [List.cons_append] at hd
        simp only [List.head?_cons, Option.some.injEq] at hd
        subst hd
        have hc2 : safeChar c2 = true := hsafe c2 (by simp)
        exact ⟨by rintro rfl; exact absurd hc2 (by decide),
          by rintro rfl; exact absurd hc2 (by decide)⟩
    show (parseP (cs.length + m) PMode.seq
        (parseQuant (RE.chr c) (cs ++ tail)).2).bind
        (fun q => some (RE.cat (parseQuant (RE.chr c) (cs ++ tail)).1 q.1,
          q.2)) = _
    rw [hq]
    show (parseP (cs.length + m) PMode.seq (cs ++ tail)).bind
        (fun q => some (RE.cat (RE.chr c) q.1, q.2)) = _
    rw [ih m tail hm (fun d hd => hsafe d (List.mem_cons_of_mem c hd)) hhead]
    cases parseP m PMode.seq tail with
    | none => rfl
    | some p => rfl

/-- The four glob substitutions leave a string of safe characters
unchanged. -/
theorem globSafe_chain (l : List Char) (h : ∀ c ∈ l, safeChar c = true) :
    replaceL ['*'] ['[', '^', '/', ']', '*']
      (replaceL ['*', '*', '/'] ['(', '?', ':', '.', '*', '/', ')', '?']
        (replaceL ['.'] ['[', '.', ']'] (replaceL ['?'] ['.'] l))) = l := by
  have hq : '?' ∉ l := fun hm => absurd (h _ hm) (by decide)
  have hd : '.' ∉ l := fun hm => absurd (h _ hm) (by decide)
  have hs : '*' ∉ l := fun hm => absurd (h _ hm) (by decide)
  rw [replaceL_head_notin '?' [] ['.'] l hq,
    replaceL_head_notin '.' [] ['[', '.', ']'] l hd,
    replaceL_head_notin '*' ['*', '/'] ['(', '?', ':', '.', '*', '/', ')', '?']
      l hs,
    replaceL_head_notin '*' [] ['[', '^', '/', ']', '*'] l hs]

/-- Trailing-slash rewriting on a literal glob: `stem/` becomes
`stem(/.*|$)`. -/
theorem globToRegexL_dir (stem : List Char)
    (hsafe : ∀ c ∈ stem, safeChar c = true)
    (hhead : stem.head? ≠ some '/') :
    globToRegexL (stem ++ ['/']) =
      stem ++ ['(', '/', '.', '*', '|', '$', ')'] := by
  have hall : ∀ c ∈ stem ++ ['/'], safeChar c = true := by
    intro c hc
    rcases List.mem_append.mp hc with hc | hc
    · exact hsafe c hc
    · simp only [List.mem_singleton] at hc
      subst hc
      decide
  simp only [globToRegexL]
  rw [globSafe_chain _ hall]
  rw [if_pos (List.getLast?_concat stem), List.dropLast_concat]
  cases stem with
  | nil => rfl
  | cons c cs =>
    have hc : c ≠ '/' := by
      intro he
      exact hhead (by rw [he]; rfl)
    show (if c = '/' then _ else
      c :: (cs ++ ['(', '/', '.', '*', '|', '$', ')'])) = _
    rw [if_neg hc]
    rfl

/-- Leading-slash rewriting on a literal glob: `/stem` becomes
`^stem`. -/
theorem globToRegexL_anchor (stem : List Char) (hne : stem ≠ [])
    (hsafe : ∀ c ∈ stem, safeChar c = true)
    (hlastne : stem.getLast? ≠ some '/') :
    globToRegexL ('/' :: stem) = '^' :: stem := by
  have hall : ∀ c ∈ '/' :: stem, safeChar c = true := by
    intro c hc
    rcases List.mem_cons.mp hc with hc | hc
    · subst hc; decide
    · exact hsafe c hc
  simp only [globToRegexL]
  rw [globSafe_chain _ hall]
  have hlast : ('/' :: stem).getLast? = stem.getLast? := by
    cases stem with
    | nil => exact absurd rfl hne
    | cons c cs => exact List.getLast?_cons_cons ..
  rw [hlast, if_neg hlastne]
  show (if '/' = '/' then '^' :: stem else '/' :: stem) = '^' :: stem
  rw [if_pos rfl]

/-- The regex the parser assigns to the trailing-slash suffix
`(/.*|$)`: either a `/` followed by anything, or the end of input. -/
def dirTailRE : RE :=
  RE.cat
    (RE.alt (RE.cat (RE.chr '/') (RE.cat (RE.star RE.dot) RE.eps))
      (RE.cat RE.endAnchor RE.eps))
    RE.eps

/-- Parsing `stem(/.*|$)` for a literal stem. -/
theorem parseRegexL_lit_dir (stem : List Char) (hne : stem ≠ [])
    (hsafe : ∀ c ∈ stem, safeChar c = true) :
    parseRegexL (stem ++ ['(', '/', '.', '*', '|', '$', ')']) =
      some (catList stem dirTailRE) := by
  obtain ⟨c, cs, rfl⟩ : ∃ c cs, stem = c :: cs := by
    cases stem with
    | nil => exact absurd rfl hne
    | cons c cs => exact ⟨c, cs, rfl⟩
  have hc : safeChar c = true := hsafe c (by simp)
  simp only [parseRegexL]
  rw [if_neg (by
    show ¬((c :: (cs ++ _)).head? = some '^')
    simp only [List.head?_cons, Option.some.injEq]
    rintro rfl
    exact absurd hc (by decide))]
  have hlen : 3 * ((c :: cs) ++ ['(', '/', '.', '*', '|', '$', ')']).length + 3 =
      ((c :: cs).length + (2 * (c :: cs).length + 23)) + 1 := by
    simp only [List.length_append, List.length_cons, List.length_nil]
    omega
  rw [hlen, parseP_alt_eq]
  rw [parseP_seq_lit (c :: cs) (2 * (c :: cs).length + 23)
    ['(', '/', '.', '*', '|', '$', ')'] (by omega) hsafe
    (by
      intro d hd
      simp only [List.head?_cons, Option.some.injEq] at hd
      rw [← hd]
      exact ⟨by decide, by decide⟩)]
  rw [parseP_fuel_eq (2 * (c :: cs).length + 23) 23 PMode.seq
    ['(', '/', '.', '*', '|', '$', ')']
    (by simp [needFuel]) (by simp [needFuel])]
  rw [show parseP 23 PMode.seq ['(', '/', '.', '*', '|', '$', ')'] =
    some (dirTailRE, []) from by decide]
  rfl

/-- Parsing `^stem` for a literal stem: the caret is stripped and the
stem parses to its literal chain. -/
theorem parseRegexL_caret_lit (stem : List Char)
    (hsafe : ∀ c ∈ stem, safeChar c = true) :
    parseRegexL ('^' :: stem) = some (catList stem RE.eps) := by
  simp only [parseRegexL]
  rw [if_pos (show ('^' :: stem).head? = some '^' from rfl)]
  have hlen : 3 * ('^' :: stem).length + 3 = (3 * stem.length + 5) + 1 := by
    simp only [List.length_cons]
    omega
  rw [hlen, parseP_alt_eq]
  have hlit := parseP_seq_lit stem (2 * stem.length + 5) [] (by omega) hsafe
    (by intro d hd; simp at hd)
  rw [List.append_nil] at hlit
  rw [show 3 * stem.length + 5 = stem.length + (2 * stem.length + 5) from by
    omega]
  simp only [List.tail_cons]
  rw [hlit]
  rw [show 2 * stem.length + 5 = (2 * stem.length + 4) + 1 from by omega,
    parseP_seq_nil]
  rfl

/-- `(/.*|$)` matches the empty remainder (the directory itself). -/
theorem matchPre_dirTail_nil : matchPre dirTailRE [] = true := by decide

/-- `(/.*|$)` matches `/` followed by anything beneath the directory. -/
theorem matchPre_dirTail_slash (rest : List Char) :
    matchPre dirTailRE ('/' :: rest) = true := by
  show (nullAt false dirTailRE || matchPre (deriv '/' dirTailRE) rest) = true
  rw [show deriv '/' dirTailRE =
    RE.cat
      (RE.alt (RE.cat RE.eps (RE.cat (RE.star RE.dot) RE.eps))
        (RE.cat RE.emp RE.eps))
      RE.eps from by decide]
  cases rest with
  | nil => decide
  | cons c2 cs2 =>
    show (nullAt false dirTailRE ||
      (nullAt false _ || matchPre _ cs2)) = true
    rw [show nullAt false (RE.cat
      (RE.alt (RE.cat RE.eps (RE.cat (RE.star RE.dot) RE.eps))
        (RE.cat RE.emp RE.eps))
      RE.eps) = true from by decide]
    simp

/-- C9: on a literal glob, a trailing `/` is rewritten to `(/.*|$)`, so
the produced regex matches (under `re.match`) both the directory itself
and every path beneath it; and a leading `/` is removed with `^`
prepended, anchoring the regex at the start of the build-root-relative
path, which still matches the stem itself. -/
theorem C9_trailing_and_leading_slash (stem : List Char) (hne : stem ≠ [])
    (hsafe : ∀ c ∈ stem, safeChar c = true)
    (hhead : stem.head? ≠ some '/') (hlastne : stem.getLast? ≠ some '/') :
    globToRegexL (stem ++ ['/']) =
      stem ++ ['(', '/', '.', '*', '|', '$', ')'] ∧
    reMatch ⟨globToRegexL (stem ++ ['/'])⟩ ⟨stem⟩ = true ∧
    (∀ rest : List Char,
      reMatch ⟨globToRegexL (stem ++ ['/'])⟩ ⟨stem ++ '/' :: rest⟩ = true) ∧
    globToRegexL ('/' :: stem) = '^' :: stem ∧
    reMatch ⟨'^' :: stem⟩ ⟨stem⟩ = true := by
  have hdir := globToRegexL_dir stem hsafe hhead
  have hparse := parseRegexL_lit_dir stem hne hsafe
  refine ⟨hdir, ?_, ?_, globToRegexL_anchor stem hne hsafe hlastne, ?_⟩
  · show (match parseRegexL (globToRegexL (stem ++ ['/'])) with
      | some e => matchPre e stem
      | none => false) = true
    rw [hdir, hparse]
    show matchPre (catList stem dirTailRE) stem = true
    have hm := matchPre_catList stem dirTailRE []
    rw [List.append_nil] at hm
    rw [hm, matchPre_dirTail_nil]
  · intro rest
    show (match parseRegexL (globToRegexL (stem ++ ['/'])) with
      | some e => matchPre e (stem ++ '/' :: rest)
      | none => false) = true
    rw [hdir, hparse]
    show matchPre (catList stem dirTailRE) (stem ++ '/' :: rest) = true
    rw [matchPre_catList stem dirTailRE ('/' :: rest),
      matchPre_dirTail_slash]
  · show (match parseRegexL ('^' :: stem) with
      | some e => matchPre e stem
      | none => false) = true
    rw [parseRegexL_caret_lit stem hsafe]
    show matchPre (catList stem RE.eps) stem = true
    have hm := matchPre_catList stem RE.eps []
    rw [List.append_nil] at hm
    rw [hm]
    rfl

/-- C9 witness: the glob `dist/` matches `dist` itself and a nested
path beneath it, and `/dist` is anchored. -/
theorem C9_witness :
    globToRegexL ("dist".data ++ ['/']) =
      "dist".data ++ ['(', '/', '.', '*', '|', '$', ')'] ∧
    reMatch ⟨globToRegexL ("dist".data ++ ['/'])⟩ ⟨"dist".data⟩ = true ∧
    reMatch ⟨globToRegexL ("dist".data ++ ['/'])⟩
      ⟨"dist".data ++ '/' :: "nested/x.py".data⟩ = true ∧
    globToRegexL ('/' :: "dist".data) = '^' :: "dist".data ∧
    reMatch ⟨'^' :: "dist".data⟩ ⟨"dist".data⟩ = true := by
  have h := C9_trailing_and_leading_slash "dist".data (by decide) (by decide)
    (by decide) (by decide)
  exact ⟨h.1, h.2.1, h.2.2.1 "nested/x.py".data, h.2.2.2.1, h.2.2.2.2⟩

end Pants
